import Mathlib

/-!
Verification of the region-extraction core of `surya/layout.py`.

Heatmaps are embedded as functions `ℕ → ℕ → ℚ` (row, column ↦ value),
numpy integer indexing (including negative wrap-around and the
out-of-bounds `IndexError`) as an `Option`-valued lookup, and each stage
of `get_regions_from_detection_result` / `get_regions` as an explicit
Lean function over these data.  Coordinates follow the source layout:
arrays are indexed `[row, col]` = `[y, x]`, boxes store `[x1, y1, x2, y2]`.
External geometry helpers (`fit_to_bounds`, `intersection_pct`, box
rescaling, `Box.area`) live outside this file's source; where a claim
depends on them they are either taken as parameters or modelled from the
spec, as marked in the doc comments.
-/

namespace SuryaLayout

/-- A heatmap: value at row `y`, column `x`. -/
abbrev Heat := ℕ → ℕ → ℚ

/-- The all-zero heatmap, used as the default when reading a heatmap list. -/
def hZero : Heat := fun _ _ => 0

/-- Cumulative sum along axis 0 (rows): cell `(y, x)` holds the sum of
column `x` over rows `≤ y`, as in `arr.cumsum(axis=0)`. -/
def cumsum0 (f : Heat) : Heat := fun y x => ∑ i ∈ Finset.range (y + 1), f i x

/-- Cumulative sum along axis 1 (columns), as in `arr.cumsum(axis=1)`. -/
def cumsum1 (f : Heat) : Heat := fun y x => ∑ j ∈ Finset.range (x + 1), f y j

/-- The source's `compute_integral_image(arr)` (layout.py line 13):
`arr.cumsum(axis=0).cumsum(axis=1)`. -/
def compute_integral_image (f : Heat) : Heat := cumsum1 (cumsum0 f)

/-- numpy integer indexing into an axis of length `n`: an index `i` with
`0 ≤ i < n` is used as is, `-n ≤ i < 0` wraps around to `i + n`, anything
else raises `IndexError` (modelled by `none`). -/
def npIdx (n : ℕ) (i : ℤ) : Option ℕ :=
  if 0 ≤ i ∧ i < (n : ℤ) then some i.toNat
  else if -(n : ℤ) ≤ i ∧ i < 0 then some (i + n).toNat
  else none

/-- numpy two-dimensional read `arr[y, x]` from an `h × w` array. -/
def npGet (h w : ℕ) (f : Heat) (y x : ℤ) : Option ℚ := do
  let yi ← npIdx h y
  let xi ← npIdx w x
  pure (f yi xi)

/-- The source's `bbox_avg(integral_image, x1, y1, x2, y2)` (layout.py lines 17-26) over an
`h × w` integral image, with all four reads performed before the zero-area
test, exactly as in the source. -/
def bbox_avg (h w : ℕ) (I : Heat) (x1 y1 x2 y2 : ℤ) : Option ℚ :=
  (npGet h w I y2 x2).bind fun total =>
  (if 0 < y1 then npGet h w I (y1 - 1) x2 else pure 0).bind fun above =>
  (if 0 < x1 then npGet h w I y2 (x1 - 1) else pure 0).bind fun left =>
  (if 0 < x1 ∧ 0 < y1 then npGet h w I (y1 - 1) (x1 - 1) else pure 0).bind fun above_left =>
  let bbox_sum := total - above - left + above_left
  let bbox_area : ℤ := (x2 - x1) * (y2 - y1)
  if bbox_area = 0 then pure 0 else pure (bbox_sum / (bbox_area : ℚ))

/-- Follows the spec's words (not the source): the true arithmetic mean of
the heatmap values inside the closed box `[x1,x2] × [y1,y2]`, i.e. the sum
over all cells with `x1 ≤ col ≤ x2` and `y1 ≤ row ≤ y2` divided by the
number of such cells.  Stated for comparison with `bbox_avg`. -/
def closedBoxMean (f : Heat) (x1 y1 x2 y2 : ℕ) : ℚ :=
  (∑ i ∈ Finset.Icc y1 y2, ∑ j ∈ Finset.Icc x1 x2, f i j) /
    (((x2 : ℚ) - x1 + 1) * ((y2 : ℚ) - y1 + 1))

/-- Double prefix sum with exclusive bounds: rows `< a`, columns `< b`. -/
def sq (f : Heat) (a b : ℕ) : ℚ :=
  ∑ i ∈ Finset.range a, ∑ j ∈ Finset.range b, f i j

/-- The constant-one heatmap, a concrete test input. -/
def onesHeat : Heat := fun _ _ => 1

/-- An integer box `[x1, y1, x2, y2]`, as stored in `bbox.bbox` once the
detection boxes have been rescaled into heatmap pixel space. -/
structure IRect where
  x1 : ℤ
  y1 : ℤ
  x2 : ℤ
  y2 : ℤ
deriving DecidableEq

/-- Lines 43-44 of layout.py: pad the vertical separator's right edge by
`vertical_line_width`, clamping with `min(heatmaps[0].shape[0], ...)`.
Note the source clamps against `shape[0]`, which is the number of rows
(the height), even though index 2 of the box is an x-coordinate. -/
def padVerticalLine (shape0 : ℕ) (padWidth : ℤ) (b : IRect) : IRect :=
  ⟨b.x1, b.y1, min (shape0 : ℤ) (b.x2 + padWidth), b.y2⟩

/-- Follows the spec's words (not the source): pad the right edge outward
by the padding width, clamped so it does not exceed the heatmap's width. -/
def padVerticalLineSpec (width : ℕ) (padWidth : ℤ) (b : IRect) : IRect :=
  ⟨b.x1, b.y1, min (width : ℤ) (b.x2 + padWidth), b.y2⟩

/-- The numpy slice assignment `arr[y1:y2, x1:x2] = 0` on one heatmap:
half-open index ranges, as slicing excludes the stop index. -/
def zeroRegion (b : IRect) (f : Heat) : Heat := fun y x =>
  if b.y1 ≤ (y : ℤ) ∧ (y : ℤ) < b.y2 ∧ b.x1 ≤ (x : ℤ) ∧ (x : ℤ) < b.x2 then 0 else f y x

/-- Lines 41-46 of layout.py: for each vertical separator box, zero every
class plane of `logits` inside the padded rectangle. -/
def zeroVerticalLines (shape0 : ℕ) (padWidth : ℤ) (vlines : List IRect)
    (logits : List Heat) : List Heat :=
  vlines.foldl (fun lg b => lg.map (zeroRegion (padVerticalLine shape0 padWidth b))) logits

/-- Line 48 of layout.py: `logits[:, logits[0] >= .5] = 0` — zero every
plane wherever the blank plane (index 0, read before the assignment)
is at least one half. -/
def zeroBlanks (logits : List Heat) : List Heat :=
  let blank := logits.getD 0 hZero
  logits.map (fun f => fun y x => if (1 : ℚ)/2 ≤ blank y x then 0 else f y x)

/-- The `np.argmax` accumulator: carries the best (index, value) pair so far
and the index of the next element; updates only on a strictly larger
value, so the first maximum wins. -/
def argmaxAux : ℕ × ℚ → ℕ → List ℚ → ℕ
  | best, _, [] => best.1
  | best, i, v :: vs => if best.2 < v then argmaxAux (i, v) (i + 1) vs else argmaxAux best (i + 1) vs

/-- Behaviour of `np.argmax` over a list: index of the first maximal element
(`0` for the empty list, which numpy would reject). -/
def argmaxIdx : List ℚ → ℕ
  | [] => 0
  | v :: vs => argmaxAux (0, v) 1 vs

/-- Line 153 of layout.py: `np.stack(heatmaps).argmax(axis=0)` — per-pixel
arg-max class index across the stacked heatmaps, ties to the lowest index. -/
def segmentAssignment (heatmaps : List Heat) (y x : ℕ) : ℕ :=
  argmaxIdx (heatmaps.map (fun f => f y x))

/-- Zeroing one plane outside its segment:
`logits[i, segment_assignment != i] = 0`. -/
def maskOf (seg : ℕ → ℕ → ℕ) (i : ℕ) (f : Heat) : Heat :=
  fun y x => if seg y x ≠ i then 0 else f y x

/-- Lines 51-52 of layout.py: for every plane `i`, zero it wherever the
segment assignment differs from `i`.  Each iteration touches only plane
`i`, so the loop is a map over the planes. -/
def maskSegments (seg : ℕ → ℕ → ℕ) (logits : List Heat) : List Heat :=
  (List.range logits.length).map (fun i => maskOf seg i (logits.getD i hZero))

/-- A rational box `[x1, y1, x2, y2]` with derived area, standing for the
boxes produced by the external `get_detected_boxes`. -/
structure Rect where
  x1 : ℚ
  y1 : ℚ
  x2 : ℚ
  y2 : ℚ
deriving DecidableEq

/-- Modelled from the spec: the external `Box.area` is a scalar derived
from the box, for an axis-aligned box the product of its side lengths. -/
def rectArea (r : Rect) : ℚ := (r.x2 - r.x1) * (r.y2 - r.y1)

/-- Modelled from the spec: the external `Box.fit_to_bounds(bounds)` clamps
the box into the given bounds rectangle. -/
def fit_to_bounds (bounds : Rect) (r : Rect) : Rect :=
  ⟨min (max r.x1 bounds.x1) bounds.x2, min (max r.y1 bounds.y1) bounds.y2,
   min (max r.x2 bounds.x1) bounds.x2, min (max r.y2 bounds.y1) bounds.y2⟩

/-- Lines 57-63 of layout.py, up to the point where `bbox_avg` is invoked:
candidates from `get_detected_boxes` (taken here as the input list) are
filtered by `area > 25` and then clamped to the heatmap bounds
`[0, 0, shape[1] - 1, shape[0] - 1]`; every box of the resulting list has
its average intensity computed. -/
def scoredBoxes (h w : ℕ) (cands : List Rect) : List Rect :=
  ((cands.filter (fun b => decide (25 < rectArea b))).map
    (fit_to_bounds ⟨0, 0, (w : ℚ) - 1, (h : ℚ) - 1⟩))

/-- A four-corner polygon, in the order the source writes it. -/
structure Quad where
  p0 : ℚ × ℚ
  p1 : ℚ × ℚ
  p2 : ℚ × ℚ
  p3 : ℚ × ℚ
deriving DecidableEq

/-- The axis-aligned rectangle polygon written by lines 107-114 of
layout.py: `(min_x, min_y) → (max_x, min_y) → (max_x, max_y) → (min_x, max_y)`. -/
def mkRectQuad (mnx mny mxx mxy : ℚ) : Quad :=
  ⟨(mnx, mny), (mxx, mny), (mxx, mxy), (mnx, mxy)⟩

/-- The polygon of an axis-aligned box. -/
def rectQuad (r : Rect) : Quad := mkRectQuad r.x1 r.y1 r.x2 r.y2

/-- The x-coordinates `b[0]` of a polygon's corners (lines 97-100). -/
def quadXs (q : Quad) : List ℚ := [q.p0.1, q.p1.1, q.p2.1, q.p3.1]

/-- The y-coordinates `b[1]` of a polygon's corners (lines 97-100). -/
def quadYs (q : Quad) : List ℚ := [q.p0.2, q.p1.2, q.p2.2, q.p3.2]

/-- Python's `min` over a non-empty list (`0` for `[]`, which Python
would reject). -/
def pyMin : List ℚ → ℚ
  | [] => 0
  | q :: qs => qs.foldl min q

/-- Python's `max` over a non-empty list (`0` for `[]`). -/
def pyMax : List ℚ → ℚ
  | [] => 0
  | q :: qs => qs.foldl max q

/-- A layout box: polygon, label, confidence (schema.LayoutBox). -/
structure LayoutBox where
  polygon : Quad
  label : String
  confidence : ℚ
deriving DecidableEq

/-- Modelled from the spec: a box's area as derived from its polygon
(an axis-aligned quadrilateral), width times height of its extent. -/
def lbArea (bx : LayoutBox) : ℚ :=
  (pyMax (quadXs bx.polygon) - pyMin (quadXs bx.polygon)) *
    (pyMax (quadYs bx.polygon) - pyMin (quadYs bx.polygon))

/-- Lines 88-115 of layout.py (run after the relabeling of line 86): if the
box has covered lines and its label is not "Picture", overwrite its polygon
with the bounding rectangle of the covered lines' extents, additionally
united with the box's own polygon extent for "Figure", "Table", "Formula". -/
def expandStep (covered : List Rect) (bx : LayoutBox) : LayoutBox :=
  if 0 < covered.length ∧ bx.label ∉ (["Picture"] : List String) then
    let mnx := pyMin (covered.map Rect.x1)
    let mny := pyMin (covered.map Rect.y1)
    let mxx := pyMax (covered.map Rect.x2)
    let mxy := pyMax (covered.map Rect.y2)
    if bx.label ∈ (["Figure", "Table", "Formula"] : List String) then
      let q := mkRectQuad (min mnx (pyMin (quadXs bx.polygon)))
        (min mny (pyMin (quadYs bx.polygon)))
        (max mxx (pyMax (quadXs bx.polygon)))
        (max mxy (pyMax (quadYs bx.polygon)))
      { bx with polygon := q }
    else
      { bx with polygon := mkRectQuad mnx mny mxx mxy }
  else bx

/-- One iteration of the `new_boxes` loop, lines 81-116 of layout.py:
`covered` is `box_lines[bbox_idx]` (empty iff `bbox_idx not in box_lines`).
A box with no covered lines is skipped unless labeled "Picture" or
"Formula"; a "Picture" box with covered lines is relabeled "Figure"; then
the polygon is expanded by `expandStep` and the box is emitted. -/
def processBox (covered : List Rect) (bx : LayoutBox) : Option LayoutBox :=
  if covered.length = 0 ∧ bx.label ∉ (["Picture", "Formula"] : List String) then none
  else
    let bx1 := if 0 < covered.length ∧ bx.label ∈ (["Picture"] : List String) then
        { bx with label := "Figure" } else bx
    some (expandStep covered bx1)

/-- The whole `new_boxes` loop over the sorted detected boxes, with
`covered i` the list of line boxes claimed by box `i`. -/
def buildNewBoxes (covered : ℕ → List Rect) : ℕ → List LayoutBox → List LayoutBox
  | _, [] => []
  | i, bx :: rest =>
    match processBox (covered i) bx with
    | none => buildNewBoxes covered (i + 1) rest
    | some bx2 => bx2 :: buildNewBoxes covered (i + 1) rest

/-- Lines 122-125 of layout.py: rescale every box back to the original
image space (the rescale itself is external, taken as a parameter) and
keep only the boxes with `area > 16`. -/
def finalBoxes (rescaleBack : LayoutBox → LayoutBox) (newBoxes : List LayoutBox) :
    List LayoutBox :=
  (newBoxes.map rescaleBack).filter (fun b => decide (16 < lbArea b))

/-- State of the line-claiming loop, lines 72-78 of layout.py:
`boxLines b` lists the indices of the lines claimed by box `b`, in claim
order (the source stores the lines' `bbox` values; indices identify them),
and `used` is the set of already claimed line indices. -/
structure ClaimState where
  boxLines : ℕ → List ℕ
  used : List ℕ

/-- The inner loop of lines 75-78: try to claim each line (from index
`lidx` on) for box number `bidx`, skipping lines already in `used`.
A line is claimed when its intersection fraction with the box is `≥ 0.5`. -/
def claimInner {α β : Type} (pct : α → β → ℚ) (bbox : β) (bidx : ℕ) :
    ℕ → List α → ClaimState → ClaimState
  | _, [], st => st
  | lidx, l :: rest, st =>
    let st' := if (1 : ℚ)/2 ≤ pct l bbox ∧ lidx ∉ st.used then
        ⟨fun b => if b = bidx then st.boxLines b ++ [lidx] else st.boxLines b,
          lidx :: st.used⟩
      else st
    claimInner pct bbox bidx (lidx + 1) rest st'

/-- The outer loop of line 74: boxes in (sorted) order, numbered from
`bidx` on. -/
def claimOuter {α β : Type} (pct : α → β → ℚ) (lines : List α) :
    ℕ → List β → ClaimState → ClaimState
  | _, [], st => st
  | bidx, bx :: rest, st =>
    claimOuter pct lines (bidx + 1) rest (claimInner pct bx bidx 0 lines st)

/-- Lines 72-78 of layout.py: the full greedy line-claiming loop, starting
from the empty assignment. -/
def claimLines {α β : Type} (pct : α → β → ℚ) (boxes : List β) (lines : List α) : ClaimState :=
  claimOuter pct lines 0 boxes ⟨fun _ => [], []⟩

/-- Line 70 of layout.py: `sorted(detected_boxes, key=confidence,
reverse=True)` — a stable descending-confidence sort. -/
def sortByConfDesc (bs : List LayoutBox) : List LayoutBox :=
  bs.mergeSort (fun a b => b.confidence ≤ a.confidence)

/-- One iteration of the `get_regions` loop (lines 131-138 of layout.py) as
it acts on the Python list `heatmaps`: plane `i` is masked **in place** to
its segment, and the same (masked) array object is appended to the list. -/
def grStep (seg : ℕ → ℕ → ℕ) (st : List Heat) (i : ℕ) : List Heat :=
  let masked := maskOf seg i (st.getD i hZero)
  st.set i masked ++ [masked]

/-- The effect of `get_regions` (lines 129-141 of layout.py) on the
`heatmaps` list it received: the loop runs over classes
`1 .. numLabels - 1`, skipping the blank class. -/
def getRegionsHeatmapsEffect (numLabels : ℕ) (seg : ℕ → ℕ → ℕ)
    (heatmaps : List Heat) : List Heat :=
  (List.range' 1 (numLabels - 1)).foldl (grStep seg) heatmaps

/-- The heatmap list stored into `LayoutResult` by `batch_layout_detection`
(lines 155-165 of layout.py): in line-reconciled mode the extractor works
on `np.stack(heatmaps)`, a fresh copy, leaving the list as it was; in
unconstrained mode the list mutated and extended by `get_regions` is
stored. -/
def batchStoredHeatmaps (lineReconciled : Bool) (numLabels : ℕ)
    (seg : ℕ → ℕ → ℕ) (heatmaps : List Heat) : List Heat :=
  if lineReconciled then heatmaps else getRegionsHeatmapsEffect numLabels seg heatmaps

/-- Concrete intersection function for witnesses: every line overlaps
every box completely. -/
def pctOne : Unit → LayoutBox → ℚ := fun _ _ => 1

/-- A concrete layout box for witnesses. -/
def boxW : LayoutBox := ⟨mkRectQuad 0 0 1 1, "Text", 1⟩

/-- A concrete "Picture" box for witnesses. -/
def pictureBoxW : LayoutBox := ⟨mkRectQuad 0 0 3 3, "Picture", 1⟩

/-- A concrete claimed-line rectangle for witnesses. -/
def lineRectW : Rect := ⟨0, 0, 2, 2⟩

/-- A concrete two-plane heatmap stack for witnesses. -/
def stackW : List Heat := [hZero, onesHeat]

/-- A segment assignment that assigns every pixel to class 0. -/
def segZero : ℕ → ℕ → ℕ := fun _ _ => 0

/-- A concrete large layout box for witnesses. -/
def bigW : LayoutBox := ⟨mkRectQuad 0 0 10 10, "Text", 1⟩

/-- A concrete large candidate rectangle for witnesses. -/
def bigRectW : Rect := ⟨0, 0, 10, 10⟩

end SuryaLayout

namespace SuryaLayout

lemma compute_integral_image_eq (f : Heat) (y x : ℕ) :
    compute_integral_image f y x = sq f (y + 1) (x + 1) := by
  unfold compute_integral_image cumsum1 cumsum0 sq
  exact Finset.sum_comm

lemma sq_incl_excl (f : Heat) (x1 y1 x2 y2 : ℕ) (hx : x1 ≤ x2) (hy : y1 ≤ y2) :
    sq f (y2 + 1) (x2 + 1) - sq f y1 (x2 + 1) - sq f (y2 + 1) x1 + sq f y1 x1 =
      ∑ i ∈ Finset.Icc y1 y2, ∑ j ∈ Finset.Icc x1 x2, f i j := by
  have hx' : x1 ≤ x2 + 1 := Nat.le_succ_of_le hx
  have hy' : y1 ≤ y2 + 1 := Nat.le_succ_of_le hy
  have hIcc : ∀ i : ℕ, ∑ j ∈ Finset.Icc x1 x2, f i j =
      (∑ j ∈ Finset.range (x2 + 1), f i j) - ∑ j ∈ Finset.range x1, f i j := by
    intro i
    rw [← Nat.Ico_succ_right, Finset.sum_Ico_eq_sub _ hx']
  rw [← Nat.Ico_succ_right, Finset.sum_Ico_eq_sub _ hy']
  simp only [hIcc]
  rw [Finset.sum_sub_distrib, Finset.sum_sub_distrib]
  unfold sq
  ring

/-- On in-bounds coordinates, `npIdx` is the identity. -/
lemma npIdx_of_lt {n j : ℕ} (h : j < n) : npIdx n (j : ℤ) = some j := by
  unfold npIdx
  rw [if_pos ⟨Int.ofNat_nonneg j, by exact_mod_cast h⟩]
  simp

lemma npGet_of_lt {h w : ℕ} (f : Heat) {y x : ℕ} (hy : y < h) (hx : x < w) :
    npGet h w f (y : ℤ) (x : ℤ) = some (f y x) := by
  unfold npGet
  rw [npIdx_of_lt hy, npIdx_of_lt hx]
  rfl

/-- Evaluation of `bbox_avg` when all four coordinates index inside the
array: the reads succeed, and the result is the inclusion-exclusion sum
divided by `(x2 - x1) * (y2 - y1)` (or `0` when that product vanishes). -/
lemma bbox_avg_inbounds (h w : ℕ) (I : Heat) (x1 y1 x2 y2 : ℕ)
    (hx1 : x1 < w) (hx2 : x2 < w) (hy1 : y1 < h) (hy2 : y2 < h) :
    bbox_avg h w I (x1 : ℤ) (y1 : ℤ) (x2 : ℤ) (y2 : ℤ) =
      some (if ((x2 : ℤ) - x1) * ((y2 : ℤ) - y1) = 0 then 0
        else (I y2 x2 - (if 0 < y1 then I (y1 - 1) x2 else 0)
            - (if 0 < x1 then I y2 (x1 - 1) else 0)
            + (if 0 < x1 ∧ 0 < y1 then I (y1 - 1) (x1 - 1) else 0)) /
          (((((x2 : ℤ) - x1) * ((y2 : ℤ) - y1) : ℤ) : ℚ))) := by
  have hy1' : y1 - 1 < h := by omega
  have hx1' : x1 - 1 < w := by omega
  unfold bbox_avg
  rw [npGet_of_lt I hy2 hx2]
  have habove : (if 0 < (y1 : ℤ) then npGet h w I ((y1 : ℤ) - 1) (x2 : ℤ) else pure 0) =
      some (if 0 < y1 then I (y1 - 1) x2 else 0) := by
    rcases Nat.eq_zero_or_pos y1 with h0 | h0
    · subst h0; norm_num
    · have hc : ((y1 : ℤ)) - 1 = ((y1 - 1 : ℕ) : ℤ) := by omega
      rw [if_pos (by exact_mod_cast h0), hc, npGet_of_lt I hy1' hx2, if_pos h0]
  have hleft : (if 0 < (x1 : ℤ) then npGet h w I (y2 : ℤ) ((x1 : ℤ) - 1) else pure 0) =
      some (if 0 < x1 then I y2 (x1 - 1) else 0) := by
    rcases Nat.eq_zero_or_pos x1 with h0 | h0
    · subst h0; norm_num
    · have hc : ((x1 : ℤ)) - 1 = ((x1 - 1 : ℕ) : ℤ) := by omega
      rw [if_pos (by exact_mod_cast h0), hc, npGet_of_lt I hy2 hx1', if_pos h0]
  have habl : (if 0 < (x1 : ℤ) ∧ 0 < (y1 : ℤ) then npGet h w I ((y1 : ℤ) - 1) ((x1 : ℤ) - 1)
        else pure 0) =
      some (if 0 < x1 ∧ 0 < y1 then I (y1 - 1) (x1 - 1) else 0) := by
    by_cases h0 : 0 < x1 ∧ 0 < y1
    · have hcx : ((x1 : ℤ)) - 1 = ((x1 - 1 : ℕ) : ℤ) := by omega
      have hcy : ((y1 : ℤ)) - 1 = ((y1 - 1 : ℕ) : ℤ) := by omega
      rw [if_pos (by exact_mod_cast h0), hcx, hcy, npGet_of_lt I hy1' hx1', if_pos h0]
    · have h0' : ¬(0 < (x1 : ℤ) ∧ 0 < (y1 : ℤ)) := by
        intro hc; exact h0 ⟨by exact_mod_cast hc.1, by exact_mod_cast hc.2⟩
      rw [if_neg h0', if_neg h0]
      rfl
  rw [habove, hleft, habl]
  by_cases hz : ((x2 : ℤ) - x1) * ((y2 : ℤ) - y1) = 0
  · simp only [Option.some_bind, if_pos hz, Option.pure_def]
  · simp only [Option.some_bind, if_neg hz, Option.pure_def]

/-- The inclusion-exclusion reads of `bbox_avg` on a genuine integral image
recover the sum over the closed box `[x1,x2] × [y1,y2]`. -/
lemma integral_reads_closed_sum (f : Heat) (x1 y1 x2 y2 : ℕ)
    (hx : x1 ≤ x2) (hy : y1 ≤ y2) :
    compute_integral_image f y2 x2
      - (if 0 < y1 then compute_integral_image f (y1 - 1) x2 else 0)
      - (if 0 < x1 then compute_integral_image f y2 (x1 - 1) else 0)
      + (if 0 < x1 ∧ 0 < y1 then compute_integral_image f (y1 - 1) (x1 - 1) else 0) =
      ∑ i ∈ Finset.Icc y1 y2, ∑ j ∈ Finset.Icc x1 x2, f i j := by
  have h1 : (if 0 < y1 then compute_integral_image f (y1 - 1) x2 else 0) =
      sq f y1 (x2 + 1) := by
    rcases Nat.eq_zero_or_pos y1 with h0 | h0
    · subst h0; simp [sq]
    · rw [if_pos h0, compute_integral_image_eq]
      congr 1
      omega
  have h2 : (if 0 < x1 then compute_integral_image f y2 (x1 - 1) else 0) =
      sq f (y2 + 1) x1 := by
    rcases Nat.eq_zero_or_pos x1 with h0 | h0
    · subst h0; simp [sq]
    · rw [if_pos h0, compute_integral_image_eq]
      congr 1
      omega
  have h3 : (if 0 < x1 ∧ 0 < y1 then compute_integral_image f (y1 - 1) (x1 - 1) else 0) =
      sq f y1 x1 := by
    by_cases h0 : 0 < x1 ∧ 0 < y1
    · rw [if_pos h0, compute_integral_image_eq]
      congr 1 <;> omega
    · rw [if_neg h0]
      rcases Nat.eq_zero_or_pos x1 with hx0 | hx0
      · subst hx0; simp [sq]
      · rcases Nat.eq_zero_or_pos y1 with hy0 | hy0
        · subst hy0; simp [sq]
        · exact absurd ⟨hx0, hy0⟩ h0
  rw [compute_integral_image_eq, h1, h2, h3, sq_incl_excl f x1 y1 x2 y2 hx hy]

/-- C1, counterexample: on the constant-one 2×2 heatmap and the in-bounds
box `(x1,y1,x2,y2) = (0,0,1,1)`, `bbox_avg` over the integral image returns
`4`, while the true arithmetic mean of the closed box `[0,1] × [0,1]`
(four cells of value `1`) is `1` — so `bbox_avg` is not the closed-box
mean. -/
theorem bbox_avg_not_closed_box_mean :
    bbox_avg 2 2 (compute_integral_image onesHeat) 0 0 1 1 = some 4 ∧
    closedBoxMean onesHeat 0 0 1 1 = 1 ∧
    bbox_avg 2 2 (compute_integral_image onesHeat) 0 0 1 1 ≠
      some (closedBoxMean onesHeat 0 0 1 1) := by
  have e1 : bbox_avg 2 2 (compute_integral_image onesHeat) 0 0 1 1 = some 4 := by
    simp [bbox_avg, npGet, npIdx, compute_integral_image, cumsum0, cumsum1, onesHeat,
      Finset.sum_range_succ]
    norm_num
  have e2 : closedBoxMean onesHeat 0 0 1 1 = 1 := by
    simp [closedBoxMean, onesHeat, Finset.sum_const, Nat.card_Icc]
    norm_num
  refine ⟨e1, e2, ?_⟩
  rw [e1, e2]
  simp

/-- C1 (amended): for a non-negative heatmap and a valid in-bounds
sub-rectangle, `bbox_avg` on `compute_integral_image` returns the sum of
the heatmap values in the closed box `[x1,x2] × [y1,y2]` divided by
`(x2 - x1) * (y2 - y1)` — the half-open cell count, not the closed-box
cell count — and `0` when `x1 = x2` or `y1 = y2`; this equals the true
closed-box mean only up to the factor
`((x2-x1+1) * (y2-y1+1)) / ((x2-x1) * (y2-y1))`. -/
theorem bbox_avg_closed_sum_over_open_area (h w : ℕ) (f : Heat) (x1 y1 x2 y2 : ℕ)
    (hf : ∀ y x, 0 ≤ f y x) (hx : x1 ≤ x2) (hxw : x2 < w) (hy : y1 ≤ y2) (hyh : y2 < h) :
    bbox_avg h w (compute_integral_image f) (x1 : ℤ) (y1 : ℤ) (x2 : ℤ) (y2 : ℤ) =
      some (if x1 = x2 ∨ y1 = y2 then 0
        else (∑ i ∈ Finset.Icc y1 y2, ∑ j ∈ Finset.Icc x1 x2, f i j) /
          (((x2 : ℚ) - x1) * ((y2 : ℚ) - y1))) := by
  rw [bbox_avg_inbounds h w _ x1 y1 x2 y2 (lt_of_le_of_lt hx hxw) hxw
    (lt_of_le_of_lt hy hyh) hyh]
  have hiff : (((x2 : ℤ) - x1) * ((y2 : ℤ) - y1) = 0) ↔ (x1 = x2 ∨ y1 = y2) := by
    rw [mul_eq_zero, sub_eq_zero, sub_eq_zero]
    constructor
    · rintro (hh | hh)
      · exact Or.inl (by exact_mod_cast hh.symm)
      · exact Or.inr (by exact_mod_cast hh.symm)
    · rintro (hh | hh)
      · exact Or.inl (by exact_mod_cast hh.symm)
      · exact Or.inr (by exact_mod_cast hh.symm)
  by_cases hz : x1 = x2 ∨ y1 = y2
  · rw [if_pos (hiff.mpr hz), if_pos hz]
  · rw [if_neg (fun hc => hz (hiff.mp hc)), if_neg hz,
      integral_reads_closed_sum f x1 y1 x2 y2 hx hy]
    congr 1
    push_cast
    ring

/-- Witness for C1 (amended) at the concrete input of the counterexample. -/
theorem bbox_avg_closed_sum_over_open_area_witness :
    bbox_avg 2 2 (compute_integral_image onesHeat) 0 0 1 1 = some 4 := by
  have h := bbox_avg_closed_sum_over_open_area 2 2 onesHeat 0 0 1 1
    (fun _ _ => by norm_num [onesHeat]) (by norm_num) (by norm_num) (by norm_num) (by norm_num)
  norm_num [onesHeat, Finset.sum_const, Nat.card_Icc] at h
  exact_mod_cast h

/-- C9, counterexample: for a rectangle lying fully outside the array's
bounds, `bbox_avg` does not return `0` — the very first read
`integral_image[y2, x2]` raises `IndexError` (modelled by `none`). -/
theorem bbox_avg_oob_is_error :
    bbox_avg 2 2 (compute_integral_image onesHeat) 5 0 6 1 = none ∧
    (none : Option ℚ) ≠ some 0 := by
  constructor
  · simp [bbox_avg, npGet, npIdx]
  · simp

/-- C9 (amended): `bbox_avg` returns `0` for a zero-area rectangle whose
coordinates index inside the array's bounds; for a rectangle fully outside
the bounds it raises an index error instead of returning `0` (shown at the
concrete fully-outside box `(5,0,6,1)` on a 2×2 array). -/
theorem bbox_avg_zero_area_and_oob (h w : ℕ) (I : Heat) (x1 y1 x2 y2 : ℕ)
    (hx1 : x1 < w) (hx2 : x2 < w) (hy1 : y1 < h) (hy2 : y2 < h)
    (harea : ((x2 : ℤ) - x1) * ((y2 : ℤ) - y1) = 0) :
    bbox_avg h w I (x1 : ℤ) (y1 : ℤ) (x2 : ℤ) (y2 : ℤ) = some 0 ∧
    bbox_avg 2 2 (compute_integral_image onesHeat) 5 0 6 1 = none := by
  constructor
  · rw [bbox_avg_inbounds h w I x1 y1 x2 y2 hx1 hx2 hy1 hy2, if_pos harea]
  · simp [bbox_avg, npGet, npIdx]

/-- Witness for C9 (amended): the zero-area in-bounds box `(1,0,1,1)` on a
2×2 array. -/
theorem bbox_avg_zero_area_and_oob_witness :
    bbox_avg 2 2 onesHeat 1 0 1 1 = some 0 := by
  have h := (bbox_avg_zero_area_and_oob 2 2 onesHeat 1 0 1 1
    (by norm_num) (by norm_num) (by norm_num) (by norm_num) (by norm_num)).1
  exact_mod_cast h

/-- C6 (code bug, evaluated at the failing input): on a heatmap with 5 rows
and 10 columns (`shape = (5, 10)`), a vertical separator `[0, 0, 8, 3]`
padded by the default 20 gets its right edge clamped by the source to
`min(shape[0], 8 + 20) = 5` — the height, not the width.  The spec's
clamp-to-width would give `10`, and the heatmap pixel at row 0, column 7,
which lies inside the spec's padded rectangle, is left untouched (value 1)
by the source's zeroing. -/
theorem vertical_pad_clamps_to_height :
    padVerticalLine 5 20 ⟨0, 0, 8, 3⟩ = ⟨0, 0, 5, 3⟩ ∧
    padVerticalLineSpec 10 20 ⟨0, 0, 8, 3⟩ = ⟨0, 0, 10, 3⟩ ∧
    (zeroVerticalLines 5 20 [⟨0, 0, 8, 3⟩] [onesHeat]).getD 0 hZero 0 7 = 1 ∧
    (0 : ℤ) ≤ 7 ∧ (7 : ℤ) < (padVerticalLineSpec 10 20 ⟨0, 0, 8, 3⟩).x2 := by
  refine ⟨by decide, by decide, ?_, by decide, by decide⟩
  decide

/-- Label preservation of the polygon-expansion step: only the polygon is
rewritten. -/
lemma expandStep_label (covered : List Rect) (bx : LayoutBox) :
    (expandStep covered bx).label = bx.label := by
  unfold expandStep
  by_cases h1 : 0 < covered.length ∧ bx.label ∉ (["Picture"] : List String)
  · rw [if_pos h1]
    by_cases h2 : bx.label ∈ (["Figure", "Table", "Formula"] : List String)
    · rw [if_pos h2]
    · rw [if_neg h2]
  · rw [if_neg h1]

/-- C4: in the filtering step of the `new_boxes` loop, a box with zero
claimed lines is kept if and only if its label is "Picture" or "Formula",
and every "Picture" box with at least one claimed line is emitted with its
label changed to "Figure". -/
theorem zero_line_keep_iff_picture_relabel (covered : List Rect) (bx : LayoutBox) :
    (covered = [] → ((processBox covered bx).isSome = true ↔
      bx.label = "Picture" ∨ bx.label = "Formula")) ∧
    (covered ≠ [] → bx.label = "Picture" →
      ∃ bx2, processBox covered bx = some bx2 ∧ bx2.label = "Figure") := by
  constructor
  · intro hc
    subst hc
    unfold processBox
    by_cases hl : bx.label = "Picture" ∨ bx.label = "Formula"
    · have hmem : bx.label ∈ (["Picture", "Formula"] : List String) := by
        rcases hl with hh | hh <;> simp [hh]
      rw [if_neg (by simp [hmem])]
      simpa using hl
    · have hmem : bx.label ∉ (["Picture", "Formula"] : List String) := by
        simpa using hl
      rw [if_pos (by simp [hmem])]
      simpa using hl
  · intro hc hlab
    have hlen : 0 < covered.length := List.length_pos.mpr hc
    refine ⟨expandStep covered { bx with label := "Figure" }, ?_, ?_⟩
    · unfold processBox
      rw [if_neg (by simp [hlab])]
      rw [if_pos ⟨hlen, by simp [hlab]⟩]
    · rw [expandStep_label]

/-- Witness for C4 at a concrete "Picture" box with no claimed lines. -/
theorem zero_line_keep_iff_picture_relabel_witness :
    (processBox [] pictureBoxW).isSome = true :=
  ((zero_line_keep_iff_picture_relabel [] pictureBoxW).1 rfl).mpr (Or.inl rfl)

/-- C5: in the polygon-expansion step (which runs after the "Picture" →
"Figure" relabeling), a box with claimed lines and label outside
{"Picture", "Figure", "Table", "Formula"} gets exactly the bounding
rectangle of its claimed lines' extents, written in the corner order
`(min_x, min_y) → (max_x, min_y) → (max_x, max_y) → (min_x, max_y)`;
for "Figure", "Table", "Formula" the box's own polygon extent is united
in as well; a box still labeled "Picture" is returned entirely unchanged,
whatever its claimed lines. -/
theorem expand_polygon_cases (covered : List Rect) (bx : LayoutBox) :
    (covered ≠ [] → bx.label ∉ (["Picture", "Figure", "Table", "Formula"] : List String) →
      (expandStep covered bx).polygon =
        mkRectQuad (pyMin (covered.map Rect.x1)) (pyMin (covered.map Rect.y1))
          (pyMax (covered.map Rect.x2)) (pyMax (covered.map Rect.y2))) ∧
    (covered ≠ [] → bx.label ∈ (["Figure", "Table", "Formula"] : List String) →
      (expandStep covered bx).polygon =
        mkRectQuad (min (pyMin (covered.map Rect.x1)) (pyMin (quadXs bx.polygon)))
          (min (pyMin (covered.map Rect.y1)) (pyMin (quadYs bx.polygon)))
          (max (pyMax (covered.map Rect.x2)) (pyMax (quadXs bx.polygon)))
          (max (pyMax (covered.map Rect.y2)) (pyMax (quadYs bx.polygon)))) ∧
    (bx.label = "Picture" → expandStep covered bx = bx) := by
  refine ⟨?_, ?_, ?_⟩
  · intro hc hl
    have hlen : 0 < covered.length := List.length_pos.mpr hc
    have hl1 : bx.label ∉ (["Picture"] : List String) := by
      intro hh
      exact hl (by simpa using Or.inl (by simpa using hh))
    have hl2 : bx.label ∉ (["Figure", "Table", "Formula"] : List String) := by
      intro hh
      apply hl
      simp only [List.mem_cons, List.mem_singleton] at hh ⊢
      tauto
    unfold expandStep
    rw [if_pos ⟨hlen, hl1⟩, if_neg hl2]
  · intro hc hl
    have hlen : 0 < covered.length := List.length_pos.mpr hc
    have hl1 : bx.label ∉ (["Picture"] : List String) := by
      intro hh
      have h1 : bx.label = "Picture" := by simpa using hh
      rw [h1] at hl
      exact absurd hl (by decide)
    unfold expandStep
    rw [if_pos ⟨hlen, hl1⟩, if_pos hl]
  · intro hlab
    unfold expandStep
    rw [if_neg (by simp [hlab])]

/-- Witness for C5 at a concrete "Text" box covering one line. -/
theorem expand_polygon_cases_witness :
    (expandStep [lineRectW] boxW).polygon = mkRectQuad 0 0 2 2 := by
  have h := (expand_polygon_cases [lineRectW] boxW).1 (by decide) (by decide)
  rw [h]
  decide

/-- Full characterisation of the `np.argmax` accumulator: either no element
beats the running best (the best index is returned), or the result points
at the first element strictly larger than every earlier one and at least
as large as every element. -/
lemma argmaxAux_spec (vs : List ℚ) : ∀ (bi i : ℕ) (bv : ℚ),
    (argmaxAux (bi, bv) i vs = bi ∧ ∀ k, k < vs.length → vs.getD k 0 ≤ bv) ∨
    (∃ k, k < vs.length ∧ argmaxAux (bi, bv) i vs = i + k ∧ bv < vs.getD k 0 ∧
      (∀ k2, k2 < k → vs.getD k2 0 < vs.getD k 0) ∧
      (∀ k2, k2 < vs.length → vs.getD k2 0 ≤ vs.getD k 0)) := by
  induction vs with
  | nil =>
    intro bi i bv
    left
    exact ⟨rfl, fun k hk => absurd hk (by simp)⟩
  | cons v rest ih =>
    intro bi i bv
    by_cases hv : bv < v
    · have h1 : argmaxAux (bi, bv) i (v :: rest) = argmaxAux (i, v) (i + 1) rest := by
        simp [argmaxAux, hv]
      rcases ih i (i + 1) v with ⟨ha, hall⟩ | ⟨k, hk, ha, hgt, hfirst, hmax⟩
      · right
        refine ⟨0, by simp, by rw [h1, ha]; omega, by simpa using hv, ?_, ?_⟩
        · intro k2 hk2
          exact absurd hk2 (Nat.not_lt_zero k2)
        · intro k2 hk2
          cases k2 with
          | zero => simp
          | succ k3 =>
            rw [List.getD_cons_succ, List.getD_cons_zero]
            exact hall k3 (by simpa using hk2)
      · right
        refine ⟨k + 1, by simpa using hk, by rw [h1, ha]; omega, ?_, ?_, ?_⟩
        · rw [List.getD_cons_succ]
          exact lt_trans hv hgt
        · intro k2 hk2
          cases k2 with
          | zero =>
            rw [List.getD_cons_zero, List.getD_cons_succ]
            exact hgt
          | succ k3 =>
            rw [List.getD_cons_succ, List.getD_cons_succ]
            exact hfirst k3 (by omega)
        · intro k2 hk2
          cases k2 with
          | zero =>
            rw [List.getD_cons_zero, List.getD_cons_succ]
            exact le_of_lt hgt
          | succ k3 =>
            rw [List.getD_cons_succ, List.getD_cons_succ]
            exact hmax k3 (by simpa using hk2)
    · have h1 : argmaxAux (bi, bv) i (v :: rest) = argmaxAux (bi, bv) (i + 1) rest := by
        simp [argmaxAux, hv]
      have hvle : v ≤ bv := not_lt.mp hv
      rcases ih bi (i + 1) bv with ⟨ha, hall⟩ | ⟨k, hk, ha, hgt, hfirst, hmax⟩
      · left
        refine ⟨by rw [h1, ha], ?_⟩
        intro k2 hk2
        cases k2 with
        | zero => simpa using hvle
        | succ k3 =>
          rw [List.getD_cons_succ]
          exact hall k3 (by simpa using hk2)
      · right
        refine ⟨k + 1, by simpa using hk, by rw [h1, ha]; omega, ?_, ?_, ?_⟩
        · rw [List.getD_cons_succ]
          exact hgt
        · intro k2 hk2
          cases k2 with
          | zero =>
            rw [List.getD_cons_zero, List.getD_cons_succ]
            exact lt_of_le_of_lt hvle hgt
          | succ k3 =>
            rw [List.getD_cons_succ, List.getD_cons_succ]
            exact hfirst k3 (by omega)
        · intro k2 hk2
          cases k2 with
          | zero =>
            rw [List.getD_cons_zero, List.getD_cons_succ]
            exact le_of_lt (lt_of_le_of_lt hvle hgt)
          | succ k3 =>
            rw [List.getD_cons_succ, List.getD_cons_succ]
            exact hmax k3 (by simpa using hk2)

/-- On a non-empty list, `argmaxIdx` returns an in-range index of a maximal
element, and every earlier element is strictly smaller (first max wins). -/
lemma argmaxIdx_spec (v : ℚ) (vs : List ℚ) :
    argmaxIdx (v :: vs) < (v :: vs).length ∧
    (∀ j, j < (v :: vs).length →
      (v :: vs).getD j 0 ≤ (v :: vs).getD (argmaxIdx (v :: vs)) 0) ∧
    (∀ j, j < argmaxIdx (v :: vs) →
      (v :: vs).getD j 0 < (v :: vs).getD (argmaxIdx (v :: vs)) 0) := by
  have hdef : argmaxIdx (v :: vs) = argmaxAux (0, v) 1 vs := rfl
  rcases argmaxAux_spec vs 0 1 v with ⟨ha, hall⟩ | ⟨k, hk, ha, hgt, hfirst, hmax⟩
  · rw [hdef, ha]
    refine ⟨by simp, ?_, ?_⟩
    · intro j hj
      cases j with
      | zero => simp
      | succ j2 =>
        rw [List.getD_cons_succ, List.getD_cons_zero]
        exact hall j2 (by simpa using hj)
    · intro j hj
      exact absurd hj (Nat.not_lt_zero j)
  · rw [hdef, ha]
    have hk1 : 1 + k = k + 1 := by omega
    rw [hk1]
    refine ⟨by simpa using hk, ?_, ?_⟩
    · intro j hj
      rw [List.getD_cons_succ]
      cases j with
      | zero =>
        rw [List.getD_cons_zero]
        exact le_of_lt hgt
      | succ j2 =>
        rw [List.getD_cons_succ]
        exact hmax j2 (by simpa using hj)
    · intro j hj
      rw [List.getD_cons_succ]
      cases j with
      | zero =>
        rw [List.getD_cons_zero]
        exact hgt
      | succ j2 =>
        rw [List.getD_cons_succ]
        exact hfirst j2 (by omega)

/-- Reading the `i`-th plane of a mapped range list. -/
lemma getD_map_range {n i : ℕ} (f : ℕ → Heat) (hi : i < n) :
    ((List.range n).map f).getD i hZero = f i := by
  rw [List.getD_eq_getElem?_getD, List.getElem?_map, List.getElem?_range hi]
  rfl

/-- Reading the per-pixel value list at an in-range plane index. -/
lemma getD_map_apply (hm : List Heat) (y x j : ℕ) (hj : j < hm.length) :
    (hm.map (fun f => f y x)).getD j 0 = (hm.getD j hZero) y x := by
  rw [List.getD_eq_getElem?_getD, List.getElem?_map, List.getElem?_eq_getElem hj,
    List.getD_eq_getElem?_getD, List.getElem?_eq_getElem hj]
  rfl

/-- C3: after the segment-assignment masking of lines 51-52, a plane `i` can
be non-zero at a pixel only if `i` is the segment assignment there, and the
segment assignment (computed by `np.stack(heatmaps).argmax(axis=0)` on line
153) is a lowest-index arg-max: its value bounds every plane's value at the
pixel, and every plane with a smaller index is strictly below it. -/
theorem mask_nonzero_only_argmax (heatmaps logits : List Heat)
    (hlen : logits.length = heatmaps.length) (i y x : ℕ) (hi : i < logits.length)
    (hnz : ((maskSegments (segmentAssignment heatmaps) logits).getD i hZero) y x ≠ 0) :
    i = segmentAssignment heatmaps y x ∧
    (∀ j, j < heatmaps.length →
      (heatmaps.getD j hZero) y x ≤ (heatmaps.getD i hZero) y x) ∧
    (∀ j, j < i → (heatmaps.getD j hZero) y x < (heatmaps.getD i hZero) y x) := by
  have hplane : (maskSegments (segmentAssignment heatmaps) logits).getD i hZero =
      maskOf (segmentAssignment heatmaps) i (logits.getD i hZero) := by
    unfold maskSegments
    exact getD_map_range _ hi
  rw [hplane] at hnz
  unfold maskOf at hnz
  by_cases hseg : segmentAssignment heatmaps y x ≠ i
  · rw [if_pos hseg] at hnz
    exact absurd rfl hnz
  · have hseg' : i = segmentAssignment heatmaps y x := (not_ne_iff.mp hseg).symm
    have hihm : i < heatmaps.length := hlen ▸ hi
    obtain ⟨h0, hs, hm⟩ : ∃ h0 hs, heatmaps = h0 :: hs := by
      cases heatmaps with
      | nil => exact absurd hihm (by simp)
      | cons a b => exact ⟨a, b, rfl⟩
    have hL : segmentAssignment heatmaps y x = argmaxIdx (heatmaps.map (fun f => f y x)) := rfl
    have hspec := argmaxIdx_spec (h0 y x) (hs.map (fun f => f y x))
    have hcons : (h0 y x :: hs.map (fun f => f y x)) = heatmaps.map (fun f => f y x) := by
      rw [hm]
      rfl
    rw [hcons] at hspec
    have hlenL : (heatmaps.map (fun f => f y x)).length = heatmaps.length :=
      List.length_map _ _
    have hidx : argmaxIdx (heatmaps.map (fun f => f y x)) = i := by
      rw [← hL, ← hseg']
    rw [hidx] at hspec
    refine ⟨hseg', ?_, ?_⟩
    · intro j hj
      have hsp := hspec.2.1 j (by rw [hlenL]; exact hj)
      rw [getD_map_apply heatmaps y x j hj, getD_map_apply heatmaps y x i hihm] at hsp
      exact hsp
    · intro j hj
      have hsp := hspec.2.2 j hj
      rw [getD_map_apply heatmaps y x j (lt_trans hj hihm),
        getD_map_apply heatmaps y x i hihm] at hsp
      exact hsp

/-- Witness for C3: two planes, the second everywhere 1, pixel `(0,0)`. -/
theorem mask_nonzero_only_argmax_witness : 1 = segmentAssignment stackW 0 0 := by
  have hnz : ((maskSegments (segmentAssignment stackW) stackW).getD 1 hZero) 0 0 ≠ 0 := by
    norm_num [maskSegments, maskOf, segmentAssignment, argmaxIdx, argmaxAux, stackW,
      onesHeat, hZero, List.range, List.range.loop]
  exact (mask_nonzero_only_argmax stackW stackW rfl 1 0 0 (by simp [stackW]) hnz).1

/-- After the inner claiming loop, a line index is used iff it was already
used or it denotes a line (from `lidx` on) whose intersection with the
current box reaches one half. -/
lemma claimInner_used {α β : Type} (pct : α → β → ℚ) (bbox : β) (bidx : ℕ) (d : α) :
    ∀ (ls : List α) (lidx : ℕ) (st : ClaimState) (j : ℕ),
      (j ∈ (claimInner pct bbox bidx lidx ls st).used ↔
        j ∈ st.used ∨ ∃ i, i < ls.length ∧ j = lidx + i ∧
          (1 : ℚ)/2 ≤ pct (ls.getD i d) bbox) := by
  intro ls
  induction ls with
  | nil =>
    intro lidx st j
    simp [claimInner]
  | cons l rest ih =>
    intro lidx st j
    by_cases hcl : (1 : ℚ)/2 ≤ pct l bbox ∧ lidx ∉ st.used
    · have hunfold : claimInner pct bbox bidx lidx (l :: rest) st =
          claimInner pct bbox bidx (lidx + 1) rest
            ⟨fun b => if b = bidx then st.boxLines b ++ [lidx] else st.boxLines b,
              lidx :: st.used⟩ := by
        show claimInner pct bbox bidx (lidx + 1) rest _ = _
        rw [if_pos hcl]
      rw [hunfold, ih]
      constructor
      · rintro (hu | ⟨i, hi, hj, hp⟩)
        · rcases List.mem_cons.mp hu with hj | hu2
          · exact Or.inr ⟨0, by simp, by omega, by simpa using hcl.1⟩
          · exact Or.inl hu2
        · exact Or.inr ⟨i + 1, by simpa using hi, by omega,
            by rw [List.getD_cons_succ]; exact hp⟩
      · rintro (hu | ⟨i, hi, hj, hp⟩)
        · exact Or.inl (List.mem_cons_of_mem _ hu)
        · cases i with
          | zero =>
            left
            have : j = lidx := by omega
            rw [this]
            exact List.mem_cons_self _ _
          | succ i2 =>
            right
            exact ⟨i2, by simpa using hi, by omega,
              by rw [List.getD_cons_succ] at hp; exact hp⟩
    · have hunfold : claimInner pct bbox bidx lidx (l :: rest) st =
          claimInner pct bbox bidx (lidx + 1) rest st := by
        show claimInner pct bbox bidx (lidx + 1) rest _ = _
        rw [if_neg hcl]
      rw [hunfold, ih]
      constructor
      · rintro (hu | ⟨i, hi, hj, hp⟩)
        · exact Or.inl hu
        · exact Or.inr ⟨i + 1, by simpa using hi, by omega,
            by rw [List.getD_cons_succ]; exact hp⟩
      · rintro (hu | ⟨i, hi, hj, hp⟩)
        · exact Or.inl hu
        · cases i with
          | zero =>
            rw [List.getD_cons_zero] at hp
            have hj0 : j = lidx := by omega
            rcases not_and_or.mp hcl with hnp | hnu
            · exact absurd hp hnp
            · rw [not_not] at hnu
              exact Or.inl (hj0 ▸ hnu)
          | succ i2 =>
            exact Or.inr ⟨i2, by simpa using hi, by omega,
              by rw [List.getD_cons_succ] at hp; exact hp⟩

/-- After the inner claiming loop, a line index appears in a box's claimed
list iff it was already there, or the box is the current one and the line
was free and intersects it by at least one half. -/
lemma claimInner_boxLines {α β : Type} (pct : α → β → ℚ) (bbox : β) (bidx : ℕ) (d : α) :
    ∀ (ls : List α) (lidx : ℕ) (st : ClaimState) (j b : ℕ),
      (j ∈ (claimInner pct bbox bidx lidx ls st).boxLines b ↔
        j ∈ st.boxLines b ∨ (b = bidx ∧ j ∉ st.used ∧
          ∃ i, i < ls.length ∧ j = lidx + i ∧ (1 : ℚ)/2 ≤ pct (ls.getD i d) bbox)) := by
  intro ls
  induction ls with
  | nil =>
    intro lidx st j b
    simp [claimInner]
  | cons l rest ih =>
    intro lidx st j b
    by_cases hcl : (1 : ℚ)/2 ≤ pct l bbox ∧ lidx ∉ st.used
    · have hunfold : claimInner pct bbox bidx lidx (l :: rest) st =
          claimInner pct bbox bidx (lidx + 1) rest
            ⟨fun b2 => if b2 = bidx then st.boxLines b2 ++ [lidx] else st.boxLines b2,
              lidx :: st.used⟩ := by
        show claimInner pct bbox bidx (lidx + 1) rest _ = _
        rw [if_pos hcl]
      rw [hunfold, ih]
      have hb1 : (⟨fun b2 => if b2 = bidx then st.boxLines b2 ++ [lidx] else st.boxLines b2,
          lidx :: st.used⟩ : ClaimState).boxLines b =
          if b = bidx then st.boxLines b ++ [lidx] else st.boxLines b := rfl
      have hu1 : (⟨fun b2 => if b2 = bidx then st.boxLines b2 ++ [lidx] else st.boxLines b2,
          lidx :: st.used⟩ : ClaimState).used = lidx :: st.used := rfl
      rw [hb1, hu1]
      by_cases hb : b = bidx
      · subst hb
        rw [if_pos rfl]
        constructor
        · rintro (hbl | ⟨_, hnu, i, hi, hj, hp⟩)
          · rcases List.mem_append.mp hbl with hbl2 | hj0
            · exact Or.inl hbl2
            · have hj0' : j = lidx := List.mem_singleton.mp hj0
              exact Or.inr ⟨rfl, hj0' ▸ hcl.2, 0, by simp, by omega, by simpa using hcl.1⟩
          · have hnu' : j ∉ st.used := fun hc => hnu (List.mem_cons_of_mem _ hc)
            exact Or.inr ⟨rfl, hnu', i + 1, by simpa using hi, by omega,
              by rw [List.getD_cons_succ]; exact hp⟩
        · rintro (hbl | ⟨_, hnu, i, hi, hj, hp⟩)
          · exact Or.inl (List.mem_append.mpr (Or.inl hbl))
          · cases i with
            | zero =>
              have hj0 : j = lidx := by omega
              exact Or.inl (List.mem_append.mpr (Or.inr (List.mem_singleton.mpr hj0)))
            | succ i2 =>
              refine Or.inr ⟨rfl, ?_, i2, by simpa using hi, by omega,
                by rw [List.getD_cons_succ] at hp; exact hp⟩
              intro hc
              rcases List.mem_cons.mp hc with he | hmem
              · omega
              · exact hnu hmem
      · rw [if_neg hb]
        constructor
        · rintro (hbl | ⟨hbb, _⟩)
          · exact Or.inl hbl
          · exact absurd hbb hb
        · rintro (hbl | ⟨hbb, _⟩)
          · exact Or.inl hbl
          · exact absurd hbb hb
    · have hunfold : claimInner pct bbox bidx lidx (l :: rest) st =
          claimInner pct bbox bidx (lidx + 1) rest st := by
        show claimInner pct bbox bidx (lidx + 1) rest _ = _
        rw [if_neg hcl]
      rw [hunfold, ih]
      constructor
      · rintro (hbl | ⟨hb, hnu, i, hi, hj, hp⟩)
        · exact Or.inl hbl
        · exact Or.inr ⟨hb, hnu, i + 1, by simpa using hi, by omega,
            by rw [List.getD_cons_succ]; exact hp⟩
      · rintro (hbl | ⟨hb, hnu, i, hi, hj, hp⟩)
        · exact Or.inl hbl
        · cases i with
          | zero =>
            rw [List.getD_cons_zero] at hp
            have hj0 : j = lidx := by omega
            rcases not_and_or.mp hcl with hnp | hnu2
            · exact absurd hp hnp
            · rw [not_not] at hnu2
              exact absurd (hj0 ▸ hnu2) hnu
          | succ i2 =>
            exact Or.inr ⟨hb, hnu, i2, by simpa using hi, by omega,
              by rw [List.getD_cons_succ] at hp; exact hp⟩

/-- After the outer claiming loop, a line index is used iff it was used
before or some processed box intersects that line by at least one half. -/
lemma claimOuter_used {α β : Type} (pct : α → β → ℚ) (lines : List α) (d : α) (d2 : β) :
    ∀ (bs : List β) (bidx : ℕ) (st : ClaimState) (j : ℕ),
      (j ∈ (claimOuter pct lines bidx bs st).used ↔
        j ∈ st.used ∨ (j < lines.length ∧
          ∃ i, i < bs.length ∧ (1 : ℚ)/2 ≤ pct (lines.getD j d) (bs.getD i d2))) := by
  intro bs
  induction bs with
  | nil =>
    intro bidx st j
    simp [claimOuter]
  | cons bx rest ih =>
    intro bidx st j
    have hunfold : claimOuter pct lines bidx (bx :: rest) st =
        claimOuter pct lines (bidx + 1) rest (claimInner pct bx bidx 0 lines st) := rfl
    rw [hunfold, ih]
    rw [claimInner_used pct bx bidx d lines 0 st j]
    constructor
    · rintro ((hu | ⟨i, hi, hj, hp⟩) | ⟨hlt, i, hi, hp⟩)
      · exact Or.inl hu
      · have hj' : j = i := by omega
        subst hj'
        exact Or.inr ⟨hi, 0, by simp, by simpa using hp⟩
      · exact Or.inr ⟨hlt, i + 1, by simpa using hi,
          by rw [List.getD_cons_succ]; exact hp⟩
    · rintro (hu | ⟨hlt, i, hi, hp⟩)
      · exact Or.inl (Or.inl hu)
      · cases i with
        | zero =>
          exact Or.inl (Or.inr ⟨j, hlt, by omega, by simpa using hp⟩)
        | succ i2 =>
          exact Or.inr ⟨hlt, i2, by simpa using hi,
            by rw [List.getD_cons_succ] at hp; exact hp⟩

/-- After the outer claiming loop, a line belongs to a box's claimed list
iff it already did, or the line was free, and the box is the first
processed box whose intersection with the line reaches one half. -/
lemma claimOuter_boxLines {α β : Type} (pct : α → β → ℚ) (lines : List α) (d : α) (d2 : β) :
    ∀ (bs : List β) (bidx : ℕ) (st : ClaimState) (j b : ℕ),
      (j ∈ (claimOuter pct lines bidx bs st).boxLines b ↔
        j ∈ st.boxLines b ∨ (j ∉ st.used ∧ j < lines.length ∧
          ∃ i, i < bs.length ∧ b = bidx + i ∧
            (1 : ℚ)/2 ≤ pct (lines.getD j d) (bs.getD i d2) ∧
            ∀ i2, i2 < i → ¬((1 : ℚ)/2 ≤ pct (lines.getD j d) (bs.getD i2 d2)))) := by
  intro bs
  induction bs with
  | nil =>
    intro bidx st j b
    simp [claimOuter]
  | cons bx rest ih =>
    intro bidx st j b
    have hunfold : claimOuter pct lines bidx (bx :: rest) st =
        claimOuter pct lines (bidx + 1) rest (claimInner pct bx bidx 0 lines st) := rfl
    rw [hunfold, ih]
    rw [claimInner_boxLines pct bx bidx d lines 0 st j b]
    constructor
    · rintro ((hbl | ⟨hb, hnu, i, hi, hj, hp⟩) | ⟨hnu1, hlt, i, hi, hb, hp, hall⟩)
      · exact Or.inl hbl
      · have hj' : j = i := by omega
        subst hj'
        exact Or.inr ⟨hnu, hi, 0, by simp, by omega, by simpa using hp,
          fun i2 hi2 => absurd hi2 (Nat.not_lt_zero i2)⟩
      · rw [claimInner_used pct bx bidx d lines 0 st j] at hnu1
        push_neg at hnu1
        obtain ⟨hnu, hnbx⟩ := hnu1
        have hnp : ¬((1 : ℚ)/2 ≤ pct (lines.getD j d) bx) := by
          intro hc
          exact absurd hc (by simpa using hnbx j hlt (by omega))
        refine Or.inr ⟨hnu, hlt, i + 1, by simpa using hi, by omega,
          by rw [List.getD_cons_succ]; exact hp, ?_⟩
        intro i2 hi2
        cases i2 with
        | zero => simpa using hnp
        | succ i3 =>
          rw [List.getD_cons_succ]
          exact hall i3 (by omega)
    · rintro (hbl | ⟨hnu, hlt, i, hi, hb, hp, hall⟩)
      · exact Or.inl (Or.inl hbl)
      · cases i with
        | zero =>
          refine Or.inl (Or.inr ⟨by omega, hnu, j, hlt, by omega, by simpa using hp⟩)
        | succ i2 =>
          have hnbx : ¬((1 : ℚ)/2 ≤ pct (lines.getD j d) bx) := by
            have := hall 0 (by omega)
            simpa using this
          refine Or.inr ⟨?_, hlt, i2, by simpa using hi, by omega,
            by rw [List.getD_cons_succ] at hp; exact hp, ?_⟩
          · rw [claimInner_used pct bx bidx d lines 0 st j]
            push_neg
            refine ⟨hnu, ?_⟩
            intro i3 hi3 hj3
            have hij : i3 = j := by omega
            subst hij
            exact not_le.mp hnbx
          · intro i3 hi3
            have := hall (i3 + 1) (by omega)
            rw [List.getD_cons_succ] at this
            exact this

/-- C2: in the line-claiming loop over the descending-confidence sorted
candidates, every claimed line is claimed by exactly one box, and that box
is the earliest box in the sorted order whose intersection fraction with
the line is at least one half (nothing bounds how many lines one box may
claim). -/
theorem line_claimed_by_earliest_box {α : Type} (pct : α → LayoutBox → ℚ)
    (cands : List LayoutBox) (lines : List α) (d : α) (d2 : LayoutBox) (j b : ℕ)
    (hj : j ∈ (claimLines pct (sortByConfDesc cands) lines).boxLines b) :
    (∀ b2, j ∈ (claimLines pct (sortByConfDesc cands) lines).boxLines b2 → b2 = b) ∧
    b < (sortByConfDesc cands).length ∧
    (1 : ℚ)/2 ≤ pct (lines.getD j d) ((sortByConfDesc cands).getD b d2) ∧
    (∀ b2, b2 < b →
      ¬((1 : ℚ)/2 ≤ pct (lines.getD j d) ((sortByConfDesc cands).getD b2 d2))) := by
  have hchar : ∀ b2, j ∈ (claimLines pct (sortByConfDesc cands) lines).boxLines b2 ↔
      (j < lines.length ∧ b2 < (sortByConfDesc cands).length ∧
        (1 : ℚ)/2 ≤ pct (lines.getD j d) ((sortByConfDesc cands).getD b2 d2) ∧
        ∀ i2, i2 < b2 →
          ¬((1 : ℚ)/2 ≤ pct (lines.getD j d) ((sortByConfDesc cands).getD i2 d2))) := by
    intro b2
    have h := claimOuter_boxLines pct lines d d2 (sortByConfDesc cands) 0
      ⟨fun _ => [], []⟩ j b2
    rw [show claimLines pct (sortByConfDesc cands) lines =
      claimOuter pct lines 0 (sortByConfDesc cands) ⟨fun _ => [], []⟩ from rfl]
    rw [h]
    constructor
    · rintro (hbl | ⟨_, hlt, i, hi, hb, hp, hall⟩)
      · exact absurd hbl (List.not_mem_nil j)
      · have hb' : b2 = i := by omega
        subst hb'
        exact ⟨hlt, hi, hp, hall⟩
    · rintro ⟨hlt, hb2, hp, hall⟩
      exact Or.inr ⟨List.not_mem_nil j, hlt, b2, hb2, by omega, hp, hall⟩
  obtain ⟨hlt, hb, hp, hall⟩ := (hchar b).mp hj
  refine ⟨?_, hb, hp, hall⟩
  intro b2 hb2
  obtain ⟨_, hb2', hp2, hall2⟩ := (hchar b2).mp hb2
  by_contra hne
  rcases Nat.lt_or_ge b2 b with hlt2 | hge
  · exact absurd hp2 (hall b2 hlt2)
  · have hlt2 : b < b2 := by omega
    exact absurd hp (hall2 b hlt2)

/-- Witness for C2: a single box and a single line that fully overlaps it. -/
theorem line_claimed_by_earliest_box_witness :
    0 < (sortByConfDesc [boxW]).length ∧
    (1 : ℚ)/2 ≤ pctOne (([()] : List Unit).getD 0 ()) ((sortByConfDesc [boxW]).getD 0 boxW) := by
  have hj : 0 ∈ (claimLines pctOne (sortByConfDesc [boxW]) [()]).boxLines 0 := by
    have h := claimOuter_boxLines pctOne [()] () boxW (sortByConfDesc [boxW]) 0
      ⟨fun _ => [], []⟩ 0 0
    rw [show claimLines pctOne (sortByConfDesc [boxW]) [()] =
      claimOuter pctOne [()] 0 (sortByConfDesc [boxW]) ⟨fun _ => [], []⟩ from rfl]
    rw [h]
    refine Or.inr ⟨List.not_mem_nil 0, by simp, 0, ?_, rfl, ?_, ?_⟩
    · rw [sortByConfDesc, List.length_mergeSort]
      simp
    · norm_num [pctOne]
    · intro i2 hi2
      exact absurd hi2 (Nat.not_lt_zero i2)
  have h := line_claimed_by_earliest_box pctOne [boxW] [()] () boxW 0 0 hj
  exact ⟨h.2.1, h.2.2.1⟩

/-- The step `grStep` written without `let`. -/
lemma grStep_eq (seg : ℕ → ℕ → ℕ) (acc : List Heat) (s : ℕ) :
    grStep seg acc s =
      acc.set s (maskOf seg s (acc.getD s hZero)) ++ [maskOf seg s (acc.getD s hZero)] := rfl

/-- Each `get_regions` iteration grows the heatmap list by one. -/
lemma grFold_length (seg : ℕ → ℕ → ℕ) :
    ∀ (k s : ℕ) (acc : List Heat),
      ((List.range' s k).foldl (grStep seg) acc).length = acc.length + k := by
  intro k
  induction k with
  | zero => intro s acc; rfl
  | succ k2 ih =>
    intro s acc
    rw [List.range'_succ]
    simp only [List.foldl_cons]
    rw [ih (s + 1) (grStep seg acc s)]
    rw [grStep_eq]
    simp only [List.length_append, List.length_set, List.length_cons, List.length_nil]
    omega

/-- Within the original index range, the `get_regions` loop replaces every
processed plane by its segment-masked version and leaves the others. -/
lemma grFold_getD (seg : ℕ → ℕ → ℕ) :
    ∀ (k s : ℕ) (acc : List Heat), 1 ≤ s → s + k ≤ acc.length →
      ∀ j, j < acc.length →
        ((List.range' s k).foldl (grStep seg) acc).getD j hZero =
          if s ≤ j ∧ j < s + k then maskOf seg j (acc.getD j hZero) else acc.getD j hZero := by
  intro k
  induction k with
  | zero =>
    intro s acc hs hsk j hj
    rw [if_neg (by omega)]
    rfl
  | succ k2 ih =>
    intro s acc hs hsk j hj
    rw [List.range'_succ]
    simp only [List.foldl_cons]
    have hslen : s < acc.length := by omega
    have hstep : ∀ j2, j2 < acc.length → (grStep seg acc s).getD j2 hZero =
        if j2 = s then maskOf seg s (acc.getD s hZero) else acc.getD j2 hZero := by
      intro j2 hj2
      rw [grStep_eq]
      rw [List.getD_append _ _ _ j2 (by rw [List.length_set]; exact hj2)]
      rw [List.getD_eq_getElem?_getD, List.getElem?_set]
      by_cases he : s = j2
      · rw [if_pos he, if_pos (he ▸ hslen), if_pos he.symm]
        rfl
      · rw [if_neg he, if_neg (fun hh => he hh.symm), ← List.getD_eq_getElem?_getD]
    have hlen' : (grStep seg acc s).length = acc.length + 1 := by
      rw [grStep_eq]
      simp only [List.length_append, List.length_set, List.length_cons, List.length_nil]
    have ih2 := ih (s + 1) (grStep seg acc s) (by omega) (by omega) j (by omega)
    rw [ih2, hstep j hj]
    by_cases he : j = s
    · subst he
      rw [if_pos rfl, if_neg (by omega), if_pos (by omega)]
    · rw [if_neg he]
      by_cases hc : s + 1 ≤ j ∧ j < s + 1 + k2
      · rw [if_pos hc, if_pos (by omega)]
      · rw [if_neg hc, if_neg (by omega)]

/-- C8, counterexample: with two classes, a blank plane and an all-ones
plane, and every pixel assigned to class 0, the heatmap list after
`get_regions` has 3 entries instead of 2, and its entry 1 has been masked
to 0 although the detector produced 1 there — so the stored heatmaps are
not the raw arrays, in either content or count. -/
theorem get_regions_mutates_heatmaps :
    (batchStoredHeatmaps false 2 segZero stackW).length = 3 ∧
    stackW.length = 2 ∧
    ((batchStoredHeatmaps false 2 segZero stackW).getD 1 hZero) 0 0 = 0 ∧
    ((stackW.getD 1 hZero) 0 0 = 1) := by
  refine ⟨rfl, rfl, rfl, rfl⟩

/-- C8 (amended): the stored heatmap list is unchanged only in
line-reconciled mode (`np.stack` copies); in unconstrained mode
`get_regions` masks every non-blank plane in place and appends it again,
so the stored list has `2 * N - 1` entries whose entry `i`
(`1 ≤ i < N`) is the segment-masked plane `i`. -/
theorem stored_heatmaps (seg : ℕ → ℕ → ℕ) (hm : List Heat) (n : ℕ)
    (hn : hm.length = n) (h1 : 1 ≤ n) :
    batchStoredHeatmaps true n seg hm = hm ∧
    (batchStoredHeatmaps false n seg hm).length = 2 * n - 1 ∧
    (batchStoredHeatmaps false n seg hm).getD 0 hZero = hm.getD 0 hZero ∧
    (∀ i, 1 ≤ i → i < n →
      (batchStoredHeatmaps false n seg hm).getD i hZero =
        maskOf seg i (hm.getD i hZero)) := by
  refine ⟨rfl, ?_, ?_, ?_⟩
  · show (getRegionsHeatmapsEffect n seg hm).length = 2 * n - 1
    unfold getRegionsHeatmapsEffect
    rw [grFold_length seg (n - 1) 1 hm]
    omega
  · show (getRegionsHeatmapsEffect n seg hm).getD 0 hZero = hm.getD 0 hZero
    unfold getRegionsHeatmapsEffect
    rw [grFold_getD seg (n - 1) 1 hm (le_refl 1) (by omega) 0 (by omega)]
    rw [if_neg (by omega)]
  · intro i hi1 hin
    show (getRegionsHeatmapsEffect n seg hm).getD i hZero = maskOf seg i (hm.getD i hZero)
    unfold getRegionsHeatmapsEffect
    rw [grFold_getD seg (n - 1) 1 hm (le_refl 1) (by omega) i (by omega)]
    rw [if_pos (by omega)]

/-- Witness for C8 (amended) on the concrete two-plane stack. -/
theorem stored_heatmaps_witness :
    (batchStoredHeatmaps false 2 segZero stackW).length = 2 * 2 - 1 :=
  (stored_heatmaps segZero stackW 2 rfl (by omega)).2.1

/-- C7, counterexample: the `area > 25` filter runs before `fit_to_bounds`;
on a 3×3 heatmap a candidate `(0,0,10,10)` of area 100 passes the filter
and is then clamped to `(0,0,2,2)` of area 4 — a box of area ≤ 25 whose
average intensity is computed. -/
theorem scored_box_area_le_25 :
    scoredBoxes 3 3 [⟨0, 0, 10, 10⟩] = [⟨0, 0, 2, 2⟩] ∧
    rectArea ⟨0, 0, 2, 2⟩ ≤ 25 := by
  constructor
  · have hfilter : (25 : ℚ) < rectArea ⟨0, 0, 10, 10⟩ := by norm_num [rectArea]
    simp only [scoredBoxes, List.filter_cons, List.filter_nil, decide_eq_true_eq]
    rw [if_pos hfilter]
    simp only [List.map_cons, List.map_nil, List.cons.injEq, and_true]
    simp only [fit_to_bounds, Rect.mk.injEq]
    norm_num
  · norm_num [rectArea]

/-- C7 (amended): every box surviving the final `area > 16` filter has
area > 16, and every box whose average intensity is computed arose from a
candidate whose area exceeded 25 *before* it was clamped to the heatmap
bounds (after the clamp its area may be smaller). -/
theorem area_filters (hh ww : ℕ) (cands : List Rect) (resc : LayoutBox → LayoutBox)
    (nb : List LayoutBox) :
    (∀ bx ∈ finalBoxes resc nb, 16 < lbArea bx) ∧
    (∀ b ∈ scoredBoxes hh ww cands, ∃ b0 ∈ cands, 25 < rectArea b0 ∧
      b = fit_to_bounds ⟨0, 0, (ww : ℚ) - 1, (hh : ℚ) - 1⟩ b0) := by
  constructor
  · intro bx hbx
    unfold finalBoxes at hbx
    rw [List.mem_filter] at hbx
    simpa using hbx.2
  · intro b hb
    unfold scoredBoxes at hb
    rw [List.mem_map] at hb
    obtain ⟨b0, hb0, rfl⟩ := hb
    rw [List.mem_filter] at hb0
    exact ⟨b0, hb0.1, by simpa using hb0.2, rfl⟩

/-- Witness for C7 (amended) at the concrete inputs of the counterexample. -/
theorem area_filters_witness :
    (16 : ℚ) < lbArea bigW ∧ (25 : ℚ) < rectArea ⟨0, 0, 10, 10⟩ := by
  have harea : (16 : ℚ) < lbArea bigW := by
    simp only [lbArea, bigW, mkRectQuad, quadXs, quadYs, pyMin, pyMax, List.foldl]
    norm_num
  have hmem : bigW ∈ finalBoxes id [bigW] := by
    simp only [finalBoxes, List.map_cons, List.map_nil, id_eq, List.filter_cons,
      List.filter_nil, decide_eq_true_eq]
    rw [if_pos harea]
    exact List.mem_singleton.mpr rfl
  have hs : scoredBoxes 3 3 [⟨0, 0, 10, 10⟩] = [⟨0, 0, 2, 2⟩] := by
    have hfilter : (25 : ℚ) < rectArea ⟨0, 0, 10, 10⟩ := by norm_num [rectArea]
    simp only [scoredBoxes, List.filter_cons, List.filter_nil, decide_eq_true_eq]
    rw [if_pos hfilter]
    simp only [List.map_cons, List.map_nil, List.cons.injEq, and_true]
    simp only [fit_to_bounds, Rect.mk.injEq]
    norm_num
  constructor
  · exact (area_filters 3 3 [⟨0, 0, 10, 10⟩] id [bigW]).1 bigW hmem
  · obtain ⟨b0, hb0, hlt, _⟩ := (area_filters 3 3 [⟨0, 0, 10, 10⟩] id [bigW]).2
      ⟨0, 0, 2, 2⟩ (by rw [hs]; exact List.mem_singleton.mpr rfl)
    have hb : b0 = ⟨0, 0, 10, 10⟩ := by simpa using hb0
    rw [hb] at hlt
    exact hlt

end SuryaLayout
